import Mathlib

/-!
Shallow embedding of `shards_picker/pick_shards.py` (verilylifesciences/joint-genotype).

The script reads contig declarations from a VCF header and partitions the
concatenated genome into `nshards` shards, each a list of inclusive 1-based
intervals `(contig, start, end)`.

Python integers are arbitrary precision, so positions and lengths are `Int`.
Python 2 `/` on ints is floor division, so we use `Int.fdiv`.
The contig dictionary `length` together with the list `contigs` is represented
as the ordered list of `(name, length)` pairs; this coincides with the source
whenever contig names are unique, which every claim's validity precondition
requires.  The planner is polymorphic in the contig-name type: the source never
inspects the name, it only carries it into the output.
-/

namespace PickShards

/-- An emitted interval `(contig, start, end)`, both endpoints inclusive,
as printed by `'%s\t%s\t%s' % (contig, start, ...)`. -/
abbrev Interval (α : Type) := α × Int × Int

/-- A shard: the list `s` of intervals printed on one output line. -/
abbrev Shard (α : Type) := List (Interval α)

/-- The mutable state of the emission loop of `pick_shards.py`:
`left`, `shard_index`, `total_sofar`, the pending interval list `s`,
and `out`, the shards printed so far (in print order). -/
structure PickState (α : Type) where
  left : Int
  shard_index : Int
  total_sofar : Int
  s : Shard α
  out : List (Shard α)

/-- The inner `while True:` loop of the source, for one contig `(contig, clen)`,
with the loop cursor `start`.  The `fuel` argument bounds the number of
iterations; the Python loop runs unboundedly, and for every input reachable
under the claims' validity preconditions the fuel supplied by `runContigs`
is proved sufficient (`walkContig_spec`).

Branches, exactly as in the source:
* `if length[contig]-start+1 < left`: append `(contig, start, length[contig])`
  to `s`, decrease `left`, increase `total_sofar`, and `break`;
* else: append `(contig, start, start + left)` to `s`, print `s` as a shard,
  `shard_index += 1`, `total_sofar += left`, `start = start + left + 1`,
  `left = shard_length`, and if `shard_index == nshards - 1` override
  `left = total_length - total_sofar`; clear `s` and continue the loop. -/
def walkContig {α : Type} (total_length shard_length nshards : Int)
    (contig : α) (clen : Int) : Nat → Int → PickState α → PickState α
  | 0, _, st => st
  | fuel + 1, start, st =>
    if clen - start + 1 < st.left then
      { st with
        s := st.s ++ [(contig, start, clen)],
        left := st.left - (clen - start + 1),
        total_sofar := st.total_sofar + (clen - start + 1) }
    else
      walkContig total_length shard_length nshards contig clen fuel
        (start + st.left + 1)
        { left :=
            if st.shard_index + 1 = nshards - 1 then
              total_length - (st.total_sofar + st.left)
            else shard_length,
          shard_index := st.shard_index + 1,
          total_sofar := st.total_sofar + st.left,
          s := [],
          out := st.out ++ [st.s ++ [(contig, start, start + st.left)]] }

/-- The outer `for contig in contigs:` loop.  Each contig's `while` loop is
run with `start = 1` and fuel `(clen + 2).toNat`, which `walkContig_spec`
shows is never exhausted on inputs satisfying the validity preconditions. -/
def runContigs {α : Type} (total_length shard_length nshards : Int) :
    List (α × Int) → PickState α → PickState α
  | [], st => st
  | (contig, clen) :: rest, st =>
      runContigs total_length shard_length nshards rest
        (walkContig total_length shard_length nshards contig clen
          (clen + 2).toNat 1 st)

/-- The whole planner of `pick_shards.py`, from the parsed contig list and
`nshards` to the printed shards, in print order.  `none` models the uncaught
`ZeroDivisionError` Python raises on `total_length / nshards` when
`nshards = 0` (the process dies with a traceback and no shard output).
`Int.fdiv` is Python 2 floor division.  The final `if s: print(...)` is the
trailing `++ if st.s.isEmpty ...`. -/
def pick_shards {α : Type} (contigs : List (α × Int)) (nshards : Int) :
    Option (List (Shard α)) :=
  if nshards = 0 then none
  else
    let total_length : Int := (contigs.map Prod.snd).sum
    let shard_length : Int := total_length.fdiv nshards
    let st := runContigs total_length shard_length nshards contigs
      { left := shard_length, shard_index := 0, total_sofar := 0, s := [], out := [] }
    some (st.out ++ if st.s.isEmpty then [] else [st.s])

/-- Number of bases an interval claims to cover: `end - start + 1`
(negative for an inverted interval). -/
def ilen {α : Type} (i : Interval α) : Int := i.2.2 - i.2.1 + 1

/-- Total base count of a list of intervals. -/
def sumShard {α : Type} (sh : List (Interval α)) : Int := (sh.map ilen).sum

/-- All intervals materialised in a loop state: the printed shards flattened,
followed by the pending list `s`. -/
def flat {α : Type} (st : PickState α) : List (Interval α) :=
  st.out.flatten ++ st.s

/-- The claims' validity precondition on the planner's input: a non-empty
ordered contig list with unique names and lengths at least 1, `nshards ≥ 1`,
and a floor-divided target shard length of at least 1. -/
def ValidInput {α : Type} (contigs : List (α × Int)) (nshards : Int) : Prop :=
  contigs ≠ [] ∧ (∀ p ∈ contigs, 1 ≤ p.2) ∧ (contigs.map Prod.fst).Nodup ∧
    1 ≤ nshards ∧ 1 ≤ ((contigs.map Prod.snd).sum).fdiv nshards

instance {α : Type} [DecidableEq α] (contigs : List (α × Int)) (nshards : Int) :
    Decidable (ValidInput contigs nshards) := by
  unfold ValidInput
  infer_instance

/-! ## Header parsing

The source scans the input file with

```
for line in open(infile):
  if not line.startswith('#'): break
  if line.startswith('##contig='):
    match = re.match('##contig=<ID=([^,]*),[ ]?length=([^>]*)>.*', line)
    if not match:
      print 'Error while parsing: %s' % line
      exit(1)
    length[match.group(1)] = int(match.group(2))
    contigs.append(match.group(1))
```

A line is a `List Char`.  The regular expression is deterministic: `[^,]*`
cannot cross a comma, so it stops at the first `,`; `[ ]?` consumes a single
space exactly when one is present (if a space is present but `length=` does
not follow it, the backtracking alternative without the space also fails,
since the next character is the space itself); `[^>]*` stops at the first
`>`; the trailing `.*` always matches.  `re.match` anchors at the start only.
-/

/-- `hasPre p l` is `l.startswith(p)`: `p` is a prefix of `l`. -/
def hasPre : List Char → List Char → Bool
  | [], _ => true
  | _ :: _, [] => false
  | p :: ps, c :: cs => p = c && hasPre ps cs

/-- Remove the literal `p` from the front of `l`, failing if it is not there. -/
def stripPre : List Char → List Char → Option (List Char)
  | [], l => some l
  | _ :: _, [] => none
  | p :: ps, c :: cs => if p = c then stripPre ps cs else none

/-- Split at the first occurrence of `t`: `some (before, after)` with `t`
itself consumed, `none` if `t` does not occur.  This is `[^t]*t` of the
source's regular expression. -/
def splitAtChar (t : Char) : List Char → Option (List Char × List Char)
  | [] => none
  | c :: cs =>
    if c = t then some ([], cs)
    else
      match splitAtChar t cs with
      | none => none
      | some (a, b) => some (c :: a, b)

/-- `re.match('##contig=<ID=([^,]*),[ ]?length=([^>]*)>.*', line)`:
`some (group1, group2)` on a match, `none` otherwise. -/
def matchContig (line : List Char) : Option (List Char × List Char) :=
  match stripPre "##contig=<ID=".data line with
  | none => none
  | some r1 =>
    match splitAtChar ',' r1 with
    | none => none
    | some (name, r2) =>
      let r3 := match r2 with
        | ' ' :: rest => rest
        | other => other
      match stripPre "length=".data r3 with
      | none => none
      | some r4 =>
        match splitAtChar '>' r4 with
        | none => none
        | some (lenStr, _) => some (name, lenStr)

/-- Accumulate decimal digits; fails at the first non-digit. -/
def digitsCore (acc : Nat) : List Char → Option Nat
  | [] => some acc
  | c :: cs =>
    if c.isDigit then digitsCore (acc * 10 + (c.toNat - 48)) cs else none

/-- A non-empty all-digit string to its value. -/
def digitsNE : List Char → Option Nat
  | [] => none
  | cs => digitsCore 0 cs

/-- Python's `int(str)`: optional surrounding whitespace, an optional single
sign, then at least one decimal digit.  `none` models the `ValueError`
Python raises otherwise. -/
def pyInt (s : List Char) : Option Int :=
  let t1 := s.dropWhile Char.isWhitespace
  let t2 := (t1.reverse.dropWhile Char.isWhitespace).reverse
  match t2 with
  | '-' :: ds => (digitsNE ds).map (fun n => -(n : Int))
  | '+' :: ds => (digitsNE ds).map (fun n => (n : Int))
  | ds => (digitsNE ds).map (fun n => (n : Int))

/-- `line.startswith('#')`: the test controlling the header-scan `break`. -/
def isHeaderLine (l : List Char) : Bool := hasPre "#".data l

/-- The header-scan loop.  Returns the contig `(name, length)` pairs in
declaration order, or the error message the source prints before `exit(1)`
(for the `int()` conversion failure, the `ValueError` traceback).  Scanning
stops — successfully — at the first line not starting with `#`. -/
def scanHeader : List (List Char) → Except (List Char) (List (List Char × Int))
  | [] => .ok []
  | line :: rest =>
    if isHeaderLine line then
      if hasPre "##contig=".data line then
        match matchContig line with
        | none => .error ("Error while parsing: ".data ++ line)
        | some (name, lenStr) =>
          match pyInt lenStr with
          | none => .error ("ValueError: ".data ++ line)
          | some n =>
            match scanHeader rest with
            | .error e => .error e
            | .ok ps => .ok ((name, n) :: ps)
      else scanHeader rest
    else .ok []

/-- The whole program: scan the header of the file's lines, then run the
planner.  `.error` is an abnormal exit with no shard output. -/
def program (lines : List (List Char)) (nshards : Int) :
    Except (List Char) (List (Shard (List Char))) :=
  match scanHeader lines with
  | .error e => .error e
  | .ok contigs =>
    match pick_shards contigs nshards with
    | none => .error "ZeroDivisionError".data
    | some plan => .ok plan

/-- The header section of a file: its maximal leading run of `#` lines. -/
def headerPart (lines : List (List Char)) : List (List Char) :=
  lines.takeWhile isHeaderLine

/-! ## The walk structure of the emitted intervals

`chainFrom c p l` says the intervals of `l` all lie on contig `c`, the first
starts at `p`, and each subsequent one starts right after the previous one's
end.  `Chains cs l` says `l` splits into one non-empty chain per contig of
`cs`, in order, each starting at 1 and ending (the last interval's `end`
field) exactly at the contig's length. -/

/-- `l` is a chain of intervals on contig `c` starting at position `p`. -/
def chainFrom {α : Type} (c : α) : Int → List (Interval α) → Prop
  | _, [] => True
  | p, i :: rest => i.1 = c ∧ i.2.1 = p ∧ chainFrom c (i.2.2 + 1) rest

/-- The `end` field of the last interval of `l` (default `d` for empty `l`). -/
def lastEnd {α : Type} (d : Int) : List (Interval α) → Int
  | [] => d
  | i :: rest => lastEnd i.2.2 rest

/-- `l` is the concatenation, contig by contig, of one non-empty chain per
contig of `cs`, each starting at 1 and ending at the contig's length. -/
def Chains {α : Type} : List (α × Int) → List (Interval α) → Prop
  | [], l => l = []
  | p :: rest, l =>
      ∃ tl l2, l = tl ++ l2 ∧ tl ≠ [] ∧ chainFrom p.1 1 tl ∧
        lastEnd 0 tl = p.2 ∧ Chains rest l2

theorem lastEnd_cons {α : Type} (d : Int) (i : Interval α) (l : List (Interval α)) :
    lastEnd d (i :: l) = lastEnd i.2.2 l := rfl

theorem lastEnd_congr {α : Type} {l : List (Interval α)} (h : l ≠ []) (d e : Int) :
    lastEnd d l = lastEnd e l := by
  cases l with
  | nil => exact absurd rfl h
  | cons i rest => rfl

theorem sumShard_append {α : Type} (l1 l2 : List (Interval α)) :
    sumShard (l1 ++ l2) = sumShard l1 + sumShard l2 := by
  simp [sumShard]

/-- Telescoping: the base counts of a chain starting at `p` sum to the final
end position minus `p - 1`, whatever the signs of the individual lengths. -/
theorem chainFrom_sum {α : Type} (c : α) :
    ∀ (l : List (Interval α)) (p : Int), chainFrom c p l →
      sumShard l = lastEnd (p - 1) l - (p - 1) := by
  intro l
  induction l with
  | nil => intro p _; simp [sumShard, lastEnd]
  | cons i rest ih =>
    intro p h
    obtain ⟨_, hs, hrest⟩ := h
    have hr := ih (i.2.2 + 1) hrest
    have hcast : lastEnd (i.2.2 + 1 - 1) rest = lastEnd i.2.2 rest := by
      congr 1
      omega
    rw [hcast] at hr
    have hsum : sumShard (i :: rest) = ilen i + sumShard rest := by
      simp [sumShard]
    rw [hsum, lastEnd_cons, hr, ilen, hs]
    ring

theorem chainFrom_mem {α : Type} (c : α) :
    ∀ (l : List (Interval α)) (p : Int), chainFrom c p l → ∀ i ∈ l, i.1 = c := by
  intro l
  induction l with
  | nil => intro p _ i hi; cases hi
  | cons j rest ih =>
    intro p h i hi
    obtain ⟨hc, _, hrest⟩ := h
    rcases List.mem_cons.mp hi with hi | hi
    · rw [hi]; exact hc
    · exact ih (j.2.2 + 1) hrest i hi

theorem chains_sum {α : Type} :
    ∀ (cs : List (α × Int)) (l : List (Interval α)), Chains cs l →
      sumShard l = (cs.map Prod.snd).sum := by
  intro cs
  induction cs with
  | nil => intro l h; rw [h]; simp [sumShard]
  | cons p rest ih =>
    intro l h
    obtain ⟨tl, l2, rfl, hne, hch, hlast, hrest⟩ := h
    have h1 : sumShard tl = p.2 := by
      have := chainFrom_sum p.1 tl 1 hch
      simpa [hlast] using this
    rw [sumShard_append, h1, ih l2 hrest]
    simp

theorem chains_mem {α : Type} :
    ∀ (cs : List (α × Int)) (l : List (Interval α)), Chains cs l →
      ∀ i ∈ l, i.1 ∈ cs.map Prod.fst := by
  intro cs
  induction cs with
  | nil => intro l h i hi; rw [h] at hi; cases hi
  | cons p rest ih =>
    intro l h i hi
    obtain ⟨tl, l2, rfl, _, hch, _, hrest⟩ := h
    rcases List.mem_append.mp hi with hi | hi
    · simp [chainFrom_mem p.1 tl 1 hch i hi]
    · simp [ih l2 hrest i hi]

/-- Loop invariant for one contig's `while True:` loop.  Starting from any
state with `0 ≤ left`, `0 ≤ shard_index`, bookkeeping
`total_sofar + shard_index = P + (start - 1)` (`P` abstracts the total length
of the contigs already consumed), `P + clen ≤ T`, a cursor within `clen + 2`
and fuel exceeding `clen + 2 - start`, the loop appends a non-empty chain of
intervals on `c` starting at `start` whose last `end` field is `clen`, and
exits with `total_sofar + shard_index = P + clen`, `0 ≤ left` and
`0 ≤ shard_index`.  In particular the fuel is never exhausted. -/
theorem walkContig_spec {α : Type} (T L n : Int) (hL : 0 ≤ L) (c : α) (clen : Int) :
    ∀ (fuel : Nat) (start : Int) (st : PickState α) (P : Int),
      0 ≤ st.left →
      0 ≤ st.shard_index →
      st.total_sofar + st.shard_index = P + (start - 1) →
      P + clen ≤ T →
      start ≤ clen + 2 →
      clen + 2 - start < (fuel : Int) →
      ∃ tl : List (Interval α),
        flat (walkContig T L n c clen fuel start st) = flat st ++ tl ∧
        chainFrom c start tl ∧ tl ≠ [] ∧ lastEnd 0 tl = clen ∧
        (walkContig T L n c clen fuel start st).total_sofar
          + (walkContig T L n c clen fuel start st).shard_index = P + clen ∧
        0 ≤ (walkContig T L n c clen fuel start st).left ∧
        0 ≤ (walkContig T L n c clen fuel start st).shard_index := by
  intro fuel
  induction fuel with
  | zero =>
    intro start st P _ _ _ _ hs hf
    exfalso
    omega
  | succ k ih =>
    intro start st P hleft hsi hinv hPc hs hf
    by_cases hbr : clen - start + 1 < st.left
    · have hw : walkContig T L n c clen (k + 1) start st =
          { st with
            s := st.s ++ [(c, start, clen)],
            left := st.left - (clen - start + 1),
            total_sofar := st.total_sofar + (clen - start + 1) } := by
        rw [walkContig]
        rw [if_pos hbr]
      refine ⟨[(c, start, clen)], ?_, ?_, by simp, by simp [lastEnd], ?_, ?_, ?_⟩
      · rw [hw]
        simp [flat, List.append_assoc]
      · simp [chainFrom]
      · rw [hw]
        simp only
        omega
      · rw [hw]
        simp only
        omega
      · rw [hw]
        simp only
        omega
    · have hw : walkContig T L n c clen (k + 1) start st =
          walkContig T L n c clen k (start + st.left + 1)
            { left :=
                if st.shard_index + 1 = n - 1 then
                  T - (st.total_sofar + st.left)
                else L,
              shard_index := st.shard_index + 1,
              total_sofar := st.total_sofar + st.left,
              s := [],
              out := st.out ++ [st.s ++ [(c, start, start + st.left)]] } := by
        rw [walkContig]
        rw [if_neg hbr]
      obtain ⟨tl', h1, h2, h3, h4, h5, h6, h7⟩ :=
        ih (start + st.left + 1)
          { left :=
              if st.shard_index + 1 = n - 1 then
                T - (st.total_sofar + st.left)
              else L,
            shard_index := st.shard_index + 1,
            total_sofar := st.total_sofar + st.left,
            s := [],
            out := st.out ++ [st.s ++ [(c, start, start + st.left)]] } P
          (by
            show (0 : Int) ≤ if st.shard_index + 1 = n - 1 then
              T - (st.total_sofar + st.left) else L
            split
            · omega
            · exact hL)
          (by show (0 : Int) ≤ st.shard_index + 1; omega)
          (by
            show st.total_sofar + st.left + (st.shard_index + 1)
              = P + (start + st.left + 1 - 1)
            omega)
          hPc
          (by omega)
          (by omega)
      have hfm : flat
          { left :=
              if st.shard_index + 1 = n - 1 then
                T - (st.total_sofar + st.left)
              else L,
            shard_index := st.shard_index + 1,
            total_sofar := st.total_sofar + st.left,
            s := [],
            out := st.out ++ [st.s ++ [(c, start, start + st.left)]] }
          = flat st ++ [(c, start, start + st.left)] := by
        simp [flat, List.flatten_append, List.append_assoc]
      refine ⟨(c, start, start + st.left) :: tl', ?_, ?_, by simp, ?_, ?_, ?_, ?_⟩
      · rw [hw, h1, hfm]
        simp [List.append_assoc]
      · exact ⟨rfl, rfl, h2⟩
      · rw [lastEnd_cons]
        rw [lastEnd_congr h3 _ 0]
        exact h4
      · rw [hw]
        exact h5
      · rw [hw]
        exact h6
      · rw [hw]
        exact h7

/-- Loop invariant for the outer `for contig in contigs:` loop: it appends
one non-empty chain per contig (each from 1 to the contig's length) and keeps
the bookkeeping and sign invariants. -/
theorem runContigs_spec {α : Type} (T L n : Int) (hL : 0 ≤ L) :
    ∀ (cs : List (α × Int)) (st : PickState α) (P : Int),
      (∀ p ∈ cs, 1 ≤ p.2) →
      0 ≤ st.left →
      0 ≤ st.shard_index →
      st.total_sofar + st.shard_index = P →
      T = P + (cs.map Prod.snd).sum →
      ∃ tl : List (Interval α),
        flat (runContigs T L n cs st) = flat st ++ tl ∧ Chains cs tl := by
  intro cs
  induction cs with
  | nil =>
    intro st P _ _ _ _ _
    exact ⟨[], by simp [runContigs], rfl⟩
  | cons p rest ih =>
    intro st P hlens hleft hsi hinv hT
    have hp1 : 1 ≤ p.2 := hlens p (List.mem_cons_self p rest)
    have hrestsum : 0 ≤ (rest.map Prod.snd).sum := by
      apply List.sum_nonneg
      intro x hx
      obtain ⟨q, hq, rfl⟩ := List.mem_map.mp hx
      exact le_trans (by norm_num) (hlens q (List.mem_cons_of_mem p hq))
    have hsum : T = P + (p.2 + (rest.map Prod.snd).sum) := by
      rw [hT]
      simp
    have hfuel : p.2 + 2 - 1 < (((p.2 + 2).toNat : Nat) : Int) := by
      rw [Int.toNat_of_nonneg (by omega)]
      omega
    obtain ⟨tl1, h1, h2, h3, h4, h5, h6, h7⟩ :=
      walkContig_spec T L n hL p.1 p.2 (p.2 + 2).toNat 1 st P hleft hsi
        (by omega) (by omega) (by omega) hfuel
    obtain ⟨tl2, g1, g2⟩ :=
      ih (walkContig T L n p.1 p.2 (p.2 + 2).toNat 1 st) (P + p.2)
        (fun q hq => hlens q (List.mem_cons_of_mem p hq)) h6 h7 h5
        (by rw [hsum]; ring)
    refine ⟨tl1 ++ tl2, ?_, tl1, tl2, rfl, h3, h2, h4, g2⟩
    have hrw : runContigs T L n (p :: rest) st =
        runContigs T L n rest (walkContig T L n p.1 p.2 (p.2 + 2).toNat 1 st) := by
      rw [runContigs]
    rw [hrw, g1, h1]
    simp [List.append_assoc]

/-- The flattening of the printed plan (including the trailing
`if s: print(...)`) is exactly `flat` of the final loop state. -/
theorem flatten_plan {α : Type} (st : PickState α) :
    (st.out ++ if st.s.isEmpty then [] else [st.s]).flatten = flat st := by
  by_cases h : st.s.isEmpty
  · have hnil : st.s = [] := List.isEmpty_iff.mp h
    simp [h, flat, hnil]
  · simp [h, flat, List.flatten_append]

/-- On any valid input the planner succeeds and its plan flattens to one
chain per input contig, each covering positions `1` to a final `end` field
equal to the contig's length, in input order. -/
theorem pick_shards_spec {α : Type} {contigs : List (α × Int)} {n : Int}
    (hv : ValidInput contigs n) :
    ∃ plan, pick_shards contigs n = some plan ∧ Chains contigs plan.flatten := by
  obtain ⟨hne, hlens, hnd, hn, hLd⟩ := hv
  have hn0 : n ≠ 0 := by omega
  have hL0 : (0 : Int) ≤ ((contigs.map Prod.snd).sum).fdiv n := by omega
  obtain ⟨tl, hflat, hch⟩ :=
    runContigs_spec ((contigs.map Prod.snd).sum) (((contigs.map Prod.snd).sum).fdiv n)
      n hL0 contigs
      { left := ((contigs.map Prod.snd).sum).fdiv n, shard_index := 0,
        total_sofar := 0, s := [], out := [] }
      0 hlens hL0 (by norm_num) (by norm_num) (by ring)
  set stF := runContigs ((contigs.map Prod.snd).sum)
      (((contigs.map Prod.snd).sum).fdiv n) n contigs
      { left := ((contigs.map Prod.snd).sum).fdiv n, shard_index := 0,
        total_sofar := 0, s := [], out := [] } with hstF
  refine ⟨stF.out ++ if stF.s.isEmpty then [] else [stF.s], ?_, ?_⟩
  · show pick_shards contigs n = _
    unfold pick_shards
    rw [if_neg hn0]
  · rw [flatten_plan]
    have hfl : flat stF = tl := by
      rw [hstF, hflat]
      simp [flat]
    rw [hfl]
    exact hch

theorem sumShard_flatten {α : Type} (l : List (List (Interval α))) :
    (l.map sumShard).sum = sumShard l.flatten := by
  simp only [sumShard, List.map_flatten, List.sum_flatten, List.map_map]
  rfl

/-- Adjacent intervals inside a single chain satisfy `next.start = prev.end + 1`;
if the chain is followed by material on other contigs (in which adjacent
same-contig pairs already chain), the same holds for the concatenation. -/
theorem chain_adj_helper {α : Type} (c : α) (l2 : List (Interval α))
    (hl2 : ∀ i ∈ l2, i.1 ≠ c)
    (hadj : ∀ (pre : List (Interval α)) (x y : Interval α) (post : List (Interval α)),
      l2 = pre ++ x :: y :: post → x.1 = y.1 → y.2.1 = x.2.2 + 1) :
    ∀ (tl : List (Interval α)) (p : Int), chainFrom c p tl →
      ∀ (pre : List (Interval α)) (x y : Interval α) (post : List (Interval α)),
        tl ++ l2 = pre ++ x :: y :: post → x.1 = y.1 → y.2.1 = x.2.2 + 1 := by
  intro tl
  induction tl with
  | nil =>
    intro p _ pre x y post heq hxy
    exact hadj pre x y post heq hxy
  | cons t tl' ih =>
    intro p hch pre x y post heq hxy
    obtain ⟨htc, hts, hch'⟩ := hch
    cases pre with
    | nil =>
      simp only [List.nil_append, List.cons_append] at heq
      injection heq with h1 h2
      cases tl' with
      | nil =>
        simp only [List.nil_append] at h2
        cases l2 with
        | nil => cases h2
        | cons z l2' =>
          injection h2 with h3 _
          exfalso
          apply hl2 y
          · rw [← h3]
            exact List.mem_cons_self z l2'
          · rw [← hxy, ← h1]
            exact htc
      | cons u tl'' =>
        injection h2 with h3 _
        obtain ⟨_, hus, _⟩ := hch'
        rw [← h3, ← h1]
        exact hus
    | cons z pre' =>
      simp only [List.cons_append] at heq
      injection heq with _ h2
      exact ih (t.2.2 + 1) hch' pre' x y post h2 hxy

/-- In the concatenation of per-contig chains with pairwise distinct contig
names, every pair of adjacent intervals carrying the same contig name chains:
the second starts right after the first ends. -/
theorem chains_adj {α : Type} :
    ∀ (cs : List (α × Int)) (l : List (Interval α)),
      Chains cs l → (cs.map Prod.fst).Nodup →
      ∀ (pre : List (Interval α)) (x y : Interval α) (post : List (Interval α)),
        l = pre ++ x :: y :: post → x.1 = y.1 → y.2.1 = x.2.2 + 1 := by
  intro cs
  induction cs with
  | nil =>
    intro l hch _ pre x y post heq _
    rw [hch] at heq
    exact absurd heq.symm (List.append_ne_nil_of_right_ne_nil pre (by simp))
  | cons p rest ih =>
    intro l hch hnd pre x y post heq hxy
    obtain ⟨tl, l2, rfl, hne, hchain, _, hrest⟩ := hch
    rw [List.map_cons, List.nodup_cons] at hnd
    have hl2 : ∀ i ∈ l2, i.1 ≠ p.1 := by
      intro i hi hip
      exact hnd.1 (hip ▸ chains_mem rest l2 hrest i hi)
    exact chain_adj_helper p.1 l2 hl2 (ih l2 hrest hnd.2) tl 1 hchain pre x y post heq hxy

/-! ## The claims -/

/-- C1: the coverage claim fails on the code.  On the valid input
`contigs = [("chr1", 100)]`, `nshards = 1` the planner emits the interval
`("chr1", 1, 101)` — covering a position 101 that does not exist on a contig
of length 100 — followed in a second shard by the inverted interval
`("chr1", 102, 100)`; the concatenation is not the contig covered from 1 to
its length.  (The closing interval's end is computed as `start + left`, one
base past the `left` bases of bookkeeping.) -/
theorem c1_coverage_fails :
    ValidInput [(("chr1" : String), (100 : Int))] 1 ∧
      pick_shards [(("chr1" : String), (100 : Int))] 1 =
        some [[("chr1", 1, 101)], [("chr1", 102, 100)]] :=
  ⟨by decide, rfl⟩

/-- C2: the worked example fails on the code.  For
`[("chr1", 100), ("chr2", 50)]` with `nshards = 3` the code emits
`[("chr1",1,51)]`, `[("chr1",52,100),("chr2",1,2)]`, `[("chr2",3,50)]` —
not the `[("chr1",1,50)]`, `[("chr1",51,100)]`, `[("chr2",1,50)]` of the
claim. -/
theorem c2_example_output :
    pick_shards [(("chr1" : String), (100 : Int)), ("chr2", 50)] 3 =
      some [[("chr1", 1, 51)], [("chr1", 52, 100), ("chr2", 1, 2)], [("chr2", 3, 50)]] :=
  rfl

/-- C3: the interval-bounds claim fails on the code.  On the valid input
`[("chr2", 7)]`, `nshards = 1` the first emitted interval is `("chr2", 1, 8)`
with `end = 8` exceeding the contig length 7, and the second is
`("chr2", 9, 7)` with `start > end`. -/
theorem c3_interval_bounds_violated :
    ValidInput [(("chr2" : String), (7 : Int))] 1 ∧
      pick_shards [(("chr2" : String), (7 : Int))] 1 =
        some [[("chr2", 1, 8)], [("chr2", 9, 7)]] ∧
      ¬ ((8 : Int) ≤ 7) ∧ ¬ ((9 : Int) ≤ 7) :=
  ⟨by decide, rfl, by decide, by decide⟩

/-- C4: the shard-count claim fails on the code.  The valid single-contig
input `[("chr1", 100)]` with `nshards = 1` — squarely in the spec's
"well-formed case (single contig ...)" — produces 2 shards, not 1: the
defensive final flush always fires because the closing interval consumed one
base more than `total_sofar` recorded. -/
theorem c4_shard_count_wrong :
    ValidInput [(("chr1" : String), (100 : Int))] 1 ∧
      (pick_shards [(("chr1" : String), (100 : Int))] 1).map List.length = some 2 :=
  ⟨by decide, rfl⟩

/-- C5: the last-shard-absorption claim fails on the code.  On the valid
input `[("chr1", 100)]`, `nshards = 2`: `total_length = 100`,
`target_shard_length = 50`, so the claim demands a final shard of
`100 - 50 * 1 = 50` bases; the code's final shard is `[("chr1", 52, 100)]`,
which has `sumShard = 49`. -/
theorem c5_last_shard_size_wrong :
    ValidInput [(("chr1" : String), (100 : Int))] 2 ∧
      pick_shards [(("chr1" : String), (100 : Int))] 2 =
        some [[("chr1", 1, 51)], [("chr1", 52, 100)]] ∧
      sumShard [(("chr1" : String), (52 : Int), (100 : Int))] = 49 ∧
      (100 : Int) - (100 : Int).fdiv 2 * (2 - 1) = 50 :=
  ⟨by decide, rfl, by decide, by decide⟩

/-- C6: confirmed.  For every valid input the planner succeeds, and summing
`end - start + 1` over every interval of every emitted shard — exact signed
integer arithmetic — gives exactly `total_length`, the sum of the contig
lengths: within each contig the interval lengths telescope, the first
interval starting at 1 and the last ending exactly at the contig length. -/
theorem c6_total_length_exact {α : Type} (contigs : List (α × Int)) (nshards : Int)
    (hv : ValidInput contigs nshards) :
    ∃ plan, pick_shards contigs nshards = some plan ∧
      (plan.map sumShard).sum = (contigs.map Prod.snd).sum := by
  obtain ⟨plan, hp, hch⟩ := pick_shards_spec hv
  refine ⟨plan, hp, ?_⟩
  rw [sumShard_flatten]
  exact chains_sum contigs plan.flatten hch

/-- C6 witness: the theorem applied to `[("chr1",100),("chr2",50)]`,
`nshards = 3`. -/
theorem c6_total_length_exact_witness :
    ValidInput [(("chr1" : String), (100 : Int)), ("chr2", 50)] 3 ∧
      ∃ plan, pick_shards [(("chr1" : String), (100 : Int)), ("chr2", 50)] 3 = some plan ∧
        (plan.map sumShard).sum =
          ([(("chr1" : String), (100 : Int)), ("chr2", 50)].map Prod.snd).sum :=
  ⟨by decide,
    c6_total_length_exact [(("chr1" : String), (100 : Int)), ("chr2", 50)] 3 (by decide)⟩

/-- C7: the precondition-checking claim fails on the code, which validates
nothing.  With an empty contig list and `nshards = 1` the program exits
successfully with an empty plan instead of failing; with `[("a", 2)]` and
`nshards = 3` (so `total_length / nshards = 0 < 1`) it happily emits three
shards rather than signalling `InvalidInput`. -/
theorem c7_no_invalid_input_check :
    pick_shards ([] : List (String × Int)) 1 = some [] ∧
      pick_shards [(("a" : String), (2 : Int))] 3 =
        some [[("a", 1, 1)], [("a", 2, 2)], [("a", 3, 2)]] :=
  ⟨rfl, rfl⟩

/-- C8: confirmed.  Any header line that begins with `##contig=` but fails
the full `<ID=NAME,length=LEN>` pattern makes the program abort with
`Error while parsing:` followed by the offending line, producing no shard
output; the spec's example `##contig=<ID=chr1,len=100>` (wrong key) is such
a line, and the well-formed `##contig=<ID=chr1,length=100>` parses without
error. -/
theorem c8_contig_decl_parse :
    (∀ (line : List Char) (rest : List (List Char)) (nshards : Int),
      hasPre "##contig=".data line = true → matchContig line = none →
      program (line :: rest) nshards =
        .error ("Error while parsing: ".data ++ line)) ∧
    matchContig "##contig=<ID=chr1,len=100>".data = none ∧
    scanHeader ["##contig=<ID=chr1,length=100>".data] = .ok [("chr1".data, 100)] := by
  refine ⟨?_, rfl, rfl⟩
  intro line rest nshards hpre hmatch
  have hline : isHeaderLine line = true := by
    cases line with
    | nil => exact absurd hpre (by decide)
    | cons a as =>
      have h9 : hasPre "##contig=".data (a :: as) =
          ((('#' : Char) = a : Bool) && hasPre "#contig=".data as) := rfl
      rw [h9] at hpre
      have ha : a = '#' :=
        (of_decide_eq_true ((Bool.and_eq_true _ _).mp hpre).1).symm
      show hasPre "#".data (a :: as) = true
      have h10 : hasPre "#".data (a :: as) =
          ((('#' : Char) = a : Bool) && hasPre [] as) := rfl
      rw [h10, ha]
      simp [hasPre]
  have hscan : scanHeader (line :: rest) =
      .error ("Error while parsing: ".data ++ line) := by
    unfold scanHeader
    rw [if_pos hline, if_pos hpre, hmatch]
  unfold program
  rw [hscan]

/-- Header scanning ignores everything from the first non-`#` line on:
`scanHeader` only looks at the leading `#` lines. -/
theorem scanHeader_headerPart : ∀ lines : List (List Char),
    scanHeader lines = scanHeader (headerPart lines) := by
  intro lines
  induction lines with
  | nil => rfl
  | cons l rest ih =>
    unfold headerPart
    by_cases h : isHeaderLine l
    · rw [List.takeWhile_cons_of_pos h]
      unfold scanHeader
      rw [if_pos h, if_pos h]
      unfold headerPart at ih
      rw [ih]
    · rw [List.takeWhile_cons_of_neg h]
      unfold scanHeader
      rw [if_neg h]

/-- C9: confirmed.  Header scanning stops at the first line not beginning
with `#`: two input files with the same leading run of `#` lines produce
identical program output, whatever follows. -/
theorem c9_output_depends_only_on_header (ls1 ls2 : List (List Char)) (nshards : Int)
    (h : headerPart ls1 = headerPart ls2) :
    program ls1 nshards = program ls2 nshards := by
  unfold program
  rw [scanHeader_headerPart ls1, scanHeader_headerPart ls2, h]

/-- C9 witness: the theorem applied to two files with header `#x` and
different bodies. -/
theorem c9_output_depends_only_on_header_witness :
    headerPart ["#x".data, "data1".data] = headerPart ["#x".data, "other".data] ∧
      program ["#x".data, "data1".data] 1 = program ["#x".data, "other".data] 1 :=
  ⟨rfl, c9_output_depends_only_on_header ["#x".data, "data1".data]
    ["#x".data, "other".data] 1 rfl⟩

/-- C8 witness: the theorem applied to the malformed line
`##contig=<ID=chr1,len=100>`. -/
theorem c8_contig_decl_parse_witness :
    hasPre "##contig=".data "##contig=<ID=chr1,len=100>".data = true ∧
      matchContig "##contig=<ID=chr1,len=100>".data = none ∧
      program ["##contig=<ID=chr1,len=100>".data] 7 =
        .error ("Error while parsing: ".data ++ "##contig=<ID=chr1,len=100>".data) :=
  ⟨rfl, rfl,
    c8_contig_decl_parse.1 "##contig=<ID=chr1,len=100>".data [] 7 rfl rfl⟩

/-- C10: confirmed.  For every valid input, any two adjacent intervals of the
flattened plan that carry the same contig name chain exactly: the second
starts at the first's end plus 1.  In particular, when a shard closes inside
a contig with end `start + left`, the walk resumes at `start + left + 1` —
no base is skipped or repeated between consecutive intervals of a contig. -/
theorem c10_consecutive_intervals_chain {α : Type} (contigs : List (α × Int))
    (nshards : Int) (hv : ValidInput contigs nshards) (plan : List (Shard α))
    (hp : pick_shards contigs nshards = some plan)
    (pre post : List (Interval α)) (x y : Interval α)
    (hsplit : plan.flatten = pre ++ x :: y :: post) (hxy : x.1 = y.1) :
    y.2.1 = x.2.2 + 1 := by
  obtain ⟨plan2, hp2, hch⟩ := pick_shards_spec hv
  rw [hp] at hp2
  injection hp2 with h
  subst h
  exact chains_adj contigs plan.flatten hch hv.2.2.1 pre x y post hsplit hxy

/-- C10 witness: the theorem applied to `[("chr1",100),("chr2",50)]`,
`nshards = 3`, at the adjacent same-contig pair `("chr1",1,51)`,
`("chr1",52,100)` of the flattened plan: `52 = 51 + 1`. -/
theorem c10_consecutive_intervals_chain_witness :
    ValidInput [(("chr1" : String), (100 : Int)), ("chr2", 50)] 3 ∧
      pick_shards [(("chr1" : String), (100 : Int)), ("chr2", 50)] 3 =
        some [[("chr1", 1, 51)], [("chr1", 52, 100), ("chr2", 1, 2)], [("chr2", 3, 50)]] ∧
      ([[(("chr1" : String), (1 : Int), (51 : Int))],
        [("chr1", 52, 100), ("chr2", 1, 2)], [("chr2", 3, 50)]] :
          List (Shard String)).flatten =
        [] ++ ("chr1", (1 : Int), (51 : Int)) :: ("chr1", 52, 100) ::
          [("chr2", 1, 2), ("chr2", 3, 50)] ∧
      ((("chr1", 52, 100) : Interval String)).2.1 =
        ((("chr1", 1, 51) : Interval String)).2.2 + 1 :=
  ⟨by decide, rfl, rfl,
    c10_consecutive_intervals_chain [(("chr1" : String), (100 : Int)), ("chr2", 50)] 3
      (by decide)
      [[("chr1", 1, 51)], [("chr1", 52, 100), ("chr2", 1, 2)], [("chr2", 3, 50)]]
      rfl
      [] [("chr2", 1, 2), ("chr2", 3, 50)]
      ("chr1", 1, 51) ("chr1", 52, 100)
      rfl rfl⟩

end PickShards
